import Mathlib

/-!
Verification of the line-editing engine of the `kazer` terminal file manager
(`src/editor.py` and `src/file_manager.py`) against its natural-language
specification.

Python strings are embedded as `List Char`; `str.rstrip` over the newline
characters becomes `stripNL`; the `modified_lines` dictionary (the edit
overlay) becomes a function `Nat → Option Line`; file-system effects of the
save routines are embedded as explicit lists of write operations applied to a
`Disk` record, so that an exception raised at any point of a save corresponds
to executing a prefix of the operation list.
-/

set_option autoImplicit false

/-- A line as held in memory: the characters of `str`, terminator included. -/
abbrev Line := List Char

/-- Tests the characters removed by the source code pattern `rstrip` with
the two newline characters, as in `line.rstrip` applied to newline and
carriage return. -/
def isNL (c : Char) : Bool := c = '\n' || c = '\r'

/-- Embedding of the Python idiom stripping the trailing newline/carriage
return characters from a line (`rstrip` with the two terminator characters). -/
def stripNL (s : Line) : Line := (s.reverse.dropWhile isNL).reverse

/-- A line content is clean when it contains no terminator characters at all;
this holds for every line produced by reading a text file in universal-newline
mode, where the in-memory content carries a newline only as final character. -/
def CleanLine (s : Line) : Prop := ∀ c ∈ s, isNL c = false

instance (s : Line) : Decidable (CleanLine s) :=
  List.decidableBAll (fun c => isNL c = false) s

/-- The edit overlay: embedding of the `modified_lines` dictionary mapping a
line index to its pending replacement content. -/
abbrev Overlay := Nat → Option Line

/-- Dictionary update, `modified_lines[i] = v`. -/
def oinsert (o : Overlay) (i : Nat) (v : Line) : Overlay :=
  fun j => if j = i then some v else o j

/-- Dictionary deletion, `del modified_lines[i]` (a no-op on an absent key,
matching the guarded `del` in the source). -/
def oerase (o : Overlay) (i : Nat) : Overlay :=
  fun j => if j = i then none else o j

/-- The empty overlay, also the result of `modified_lines.clear()`. -/
def oempty : Overlay := fun _ => none

/-- Effective content of line `i`: the source reads
`modified_lines[i].rstrip(...)` when the index is a key of the dictionary and
`lines[i].rstrip(...)` otherwise. -/
def effectiveLine (lines : List Line) (o : Overlay) (i : Nat) : Line :=
  stripNL ((o i).getD (lines.getD i []))

/-- Accumulator form of `f.readlines()`: splits the decoded text after every
newline character, keeping the terminator on each produced line; a final
unterminated chunk forms a last line of its own, and empty text yields no
lines at all. -/
def readlinesAux : List Char → List Char → List Line
  | [], acc => if acc.isEmpty then [] else [acc.reverse]
  | c :: cs, acc =>
    if c = '\n' then (c :: acc).reverse :: readlinesAux cs []
    else readlinesAux cs (c :: acc)

/-- Embedding of `f.readlines()` on the in-memory text of the file. -/
def readlines (s : List Char) : List Line := readlinesAux s []

/-- Embedding of `SimpleEditor.load_file`: an existing file is read with
`readlines`, a missing file yields the one-element list holding the empty
string. The argument is the file content when the path exists, `none`
otherwise. -/
def load_file (disk : Option (List Char)) : List Line :=
  match disk with
  | some bytes => readlines bytes
  | none => [[]]

/-- Concatenation of a list of lines into file bytes, as done by the save
loops `for line in lines: f.write(line)`. -/
def writeLines (lines : List Line) : List Char := lines.flatten

/-- The per-index merge performed by the write loop of `save_file_changes`:
`for i, line in enumerate(original_lines)` writes `modified_lines[i]` when
present and `line` otherwise. Overlay entries at indices at or beyond the
length of `original_lines` are never visited by this loop. -/
def mergedLines (original : List Line) (o : Overlay) : List Line :=
  (List.range original.length).map (fun i => (o i).getD (original.getD i []))

/-- The two files a save touches: the edited path and its backup path. -/
@[ext]
structure Disk where
  orig : Option (List Char)
  backup : Option (List Char)
deriving DecidableEq

/-- One elementary file-system effect of a save routine. Opening a file with
mode `w` truncates it; each `f.write` appends a chunk. -/
inductive FsOp
  | backupTruncate
  | backupWrite (chunk : List Char)
  | origTruncate
  | origWrite (chunk : List Char)
deriving DecidableEq

/-- Applies one file-system operation to the disk. -/
def applyOp (d : Disk) : FsOp → Disk
  | .backupTruncate => { d with backup := some [] }
  | .backupWrite c => { d with backup := some ((d.backup.getD []) ++ c) }
  | .origTruncate => { d with orig := some [] }
  | .origWrite c => { d with orig := some ((d.orig.getD []) ++ c) }

/-- Runs a list of file-system operations in order. An exception raised
mid-save corresponds to running only a prefix of the list. -/
def runOps (d : Disk) (ops : List FsOp) : Disk := ops.foldl applyOp d

/-- Embedding of `save_file_changes(file_path, original_lines,
modified_lines)` as its ordered list of file-system effects: first the backup
file is opened for writing and every line of `original_lines` (the in-memory
lines loaded at session start) is written to it, then the original path is
opened for writing and the merge of `original_lines` with `modified_lines` is
written index by index. -/
def save_file_changes_ops (original : List Line) (o : Overlay) : List FsOp :=
  (FsOp.backupTruncate :: original.map FsOp.backupWrite)
    ++ (FsOp.origTruncate :: (mergedLines original o).map FsOp.origWrite)

/-- Embedding of `SimpleEditor.save_file` as its ordered list of file-system
effects: when the file exists its current on-disk bytes are read and written
to the backup path, then every in-memory line is written to the path. The
first argument is the current content of the path (`none` when the path does
not exist, skipping the backup step). -/
def save_file_ops (diskOrig : Option (List Char)) (lines : List Line) : List FsOp :=
  (match diskOrig with
   | some bytes => [FsOp.backupTruncate, FsOp.backupWrite bytes]
   | none => [])
    ++ (FsOp.origTruncate :: lines.map FsOp.origWrite)

/-- The decoded key tokens handled by the editing routines. `Key.char c`
stands for a one-character key that passed the `isprintable` guard of the
source, so `c` is never a terminator character. -/
inductive Key
  | escape
  | left
  | right
  | home
  | lineEnd
  | up
  | down
  | insertToggle
  | backspace
  | delete
  | ctrlS
  | ctrlD
  | enter
  | char (c : Char)
deriving DecidableEq

/-- The instance attributes written by one call of `handle_editing_input`.
The fields `cursorPosition`, `insertMode` and `editingLine` are assigned
unconditionally at the top of the function; `currentEditLine` and `newLine`
(`self.new_line_index`, `self.new_line_content`) are assigned only in some
branches, so they are `Option`-valued here, `none` meaning the attribute is
left untouched by the call. -/
structure HandlerResult where
  modified : Overlay
  cursorPosition : Nat
  insertMode : Bool
  editingLine : Bool
  currentEditLine : Option Nat
  newLine : Option (Nat × Line)

/-- Embedding of `FileManager.handle_editing_input(key, lines,
modified_lines, line_index, cursor_pos, insert_mode)`. The current content is
the effective (overlay-aware) stripped line at `line_index`; every mutation
writes the new content with a single appended newline back into the overlay
at `line_index`. -/
def handle_editing_input (key : Key) (lines : List Line) (o : Overlay)
    (lineIndex cursorPos : Nat) (insertMode : Bool) : HandlerResult :=
  let cur := effectiveLine lines o lineIndex
  match key with
  | .escape => ⟨o, cursorPos, insertMode, false, none, none⟩
  | .left => ⟨o, cursorPos - 1, insertMode, true, none, none⟩
  | .right => ⟨o, min cur.length (cursorPos + 1), insertMode, true, none, none⟩
  | .home => ⟨o, 0, insertMode, true, none, none⟩
  | .lineEnd => ⟨o, cur.length, insertMode, true, none, none⟩
  | .up =>
    if lineIndex > 0 then
      let prev := effectiveLine lines o (lineIndex - 1)
      ⟨o, min cursorPos prev.length, insertMode, true, some (lineIndex - 1), none⟩
    else ⟨o, cursorPos, insertMode, true, none, none⟩
  | .down =>
    if lineIndex < lines.length - 1 then
      let next := effectiveLine lines o (lineIndex + 1)
      ⟨o, min cursorPos next.length, insertMode, true, some (lineIndex + 1), none⟩
    else ⟨o, cursorPos, insertMode, true, none, none⟩
  | .insertToggle => ⟨o, cursorPos, !insertMode, true, none, none⟩
  | .backspace =>
    if cursorPos > 0 then
      let nc := cur.take (cursorPos - 1) ++ cur.drop cursorPos
      ⟨oinsert o lineIndex (nc ++ ['\n']), cursorPos - 1, insertMode, true, none, none⟩
    else ⟨o, cursorPos, insertMode, true, none, none⟩
  | .delete =>
    if cursorPos < cur.length then
      let nc := cur.take cursorPos ++ cur.drop (cursorPos + 1)
      ⟨oinsert o lineIndex (nc ++ ['\n']), cursorPos, insertMode, true, none, none⟩
    else ⟨o, cursorPos, insertMode, true, none, none⟩
  | .ctrlS => ⟨o, cursorPos, insertMode, false, none, none⟩
  | .ctrlD => ⟨oerase o lineIndex, cursorPos, insertMode, false, none, none⟩
  | .enter =>
    if cursorPos < cur.length then
      ⟨oinsert o lineIndex (cur.take cursorPos ++ ['\n']), 0, insertMode, true,
        some (lineIndex + 1), some (lineIndex + 1, cur.drop cursorPos ++ ['\n'])⟩
    else
      ⟨o, 0, insertMode, true, some (lineIndex + 1), some (lineIndex + 1, ['\n'])⟩
  | .char c =>
    let nc :=
      if insertMode then cur.take cursorPos ++ [c] ++ cur.drop cursorPos
      else if cursorPos < cur.length then
        cur.take cursorPos ++ [c] ++ cur.drop (cursorPos + 1)
      else cur ++ [c]
    ⟨oinsert o lineIndex (nc ++ ['\n']), cursorPos + 1, insertMode, true, none, none⟩

/-- The inline-editing session state of `nano_like_viewer`, together with the
disk the viewer saves to. The field names follow the local variables of the
viewer loop. -/
structure EditSession where
  disk : Disk
  lines : List Line
  modified : Overlay
  currentEditLine : Nat
  cursorPosition : Nat
  insertMode : Bool
  editingLine : Bool
  fileModified : Bool

/-- Embedding of the `if editing_line:` block of the viewer loop: the handler
is called, then only `cursor_position`, `insert_mode` and the editing flag
are copied back from the instance attributes; `self.current_edit_line` and
the stashed `self.new_line_content` are never read, and when the handler
clears the editing flag the file is marked modified. The disk is untouched. -/
def viewer_editing_step (s : EditSession) (key : Key) : EditSession :=
  let r := handle_editing_input key s.lines s.modified s.currentEditLine
    s.cursorPosition s.insertMode
  { s with
    modified := r.modified
    cursorPosition := r.cursorPosition
    insertMode := r.insertMode
    editingLine := if r.editingLine then s.editingLine else false
    fileModified := if r.editingLine then s.fileModified else true }

/-- Embedding of the save branch of the viewer loop (key `S` in viewing
mode): when edit mode is active and the file is marked modified,
`save_file_changes` runs and then the modified flag and the overlay are
cleared; otherwise nothing happens. -/
def viewer_save_step (editMode : Bool) (s : EditSession) : EditSession :=
  if editMode && s.fileModified then
    { s with
      disk := runOps s.disk (save_file_changes_ops s.lines s.modified)
      fileModified := false
      modified := oempty }
  else s

/-- The in-memory state of the standalone `SimpleEditor`: the line list is
mutated directly, there is no overlay. The `modified` display flag plays no
role in any property below and the save/quit branches only signal the caller
(the disk effect of the save is embedded separately as `save_file_ops`), so
the state carries exactly the line and cursor data. -/
structure EditorState where
  lines : List Line
  currentLine : Nat
  cursorPos : Nat
  insertMode : Bool

/-- Stripped content of line `i` of the standalone editor, the repeated
source idiom reading the indexed line followed by `rstrip`. -/
def editorLine (s : EditorState) (i : Nat) : Line := stripNL (s.lines.getD i [])

/-- Embedding of `SimpleEditor.handle_input` for the in-memory mutations of
each key branch. The escape, save and discard branches leave the line and
cursor state unchanged (they signal the caller); a delete key has no branch
in the standalone editor and falls through the printable test, doing
nothing. -/
def handle_input (s : EditorState) (key : Key) : EditorState :=
  let cur := editorLine s s.currentLine
  match key with
  | .up =>
    if s.currentLine > 0 then
      { s with
        currentLine := s.currentLine - 1
        cursorPos := min s.cursorPos (editorLine s (s.currentLine - 1)).length }
    else s
  | .down =>
    if s.currentLine < s.lines.length - 1 then
      { s with
        currentLine := s.currentLine + 1
        cursorPos := min s.cursorPos (editorLine s (s.currentLine + 1)).length }
    else s
  | .left => if s.cursorPos > 0 then { s with cursorPos := s.cursorPos - 1 } else s
  | .right =>
    if s.cursorPos < cur.length then { s with cursorPos := s.cursorPos + 1 } else s
  | .home => { s with cursorPos := 0 }
  | .lineEnd => { s with cursorPos := cur.length }
  | .insertToggle => { s with insertMode := !s.insertMode }
  | .enter =>
    let lines' :=
      if s.cursorPos < cur.length then
        (s.lines.set s.currentLine (cur.take s.cursorPos ++ ['\n'])).insertIdx
          (s.currentLine + 1) (cur.drop s.cursorPos ++ ['\n'])
      else s.lines.insertIdx (s.currentLine + 1) ['\n']
    { s with lines := lines', currentLine := s.currentLine + 1, cursorPos := 0 }
  | .backspace =>
    if s.cursorPos > 0 then
      let nc := cur.take (s.cursorPos - 1) ++ cur.drop s.cursorPos
      { s with
        lines := s.lines.set s.currentLine (nc ++ ['\n'])
        cursorPos := s.cursorPos - 1 }
    else if s.currentLine > 0 then
      let prev := editorLine s (s.currentLine - 1)
      { s with
        lines := (s.lines.set (s.currentLine - 1) (prev ++ cur ++ ['\n'])).eraseIdx
          s.currentLine
        currentLine := s.currentLine - 1
        cursorPos := prev.length }
    else s
  | .char c =>
    let nc :=
      if s.insertMode then cur.take s.cursorPos ++ [c] ++ cur.drop s.cursorPos
      else if s.cursorPos < cur.length then
        cur.take s.cursorPos ++ [c] ++ cur.drop (s.cursorPos + 1)
      else cur ++ [c]
    { s with
      lines := s.lines.set s.currentLine (nc ++ ['\n'])
      cursorPos := s.cursorPos + 1 }
  | _ => s

/-- Case-insensitivity of the search: the source lowers both the term and the
line before the substring test. -/
def lowerL (l : List Char) : List Char := l.map Char.toLower

/-- The Python substring operator on character lists. -/
def isSubstring (needle : List Char) : List Char → Bool
  | [] => needle.isEmpty
  | c :: cs => needle.isPrefixOf (c :: cs) || isSubstring needle cs

/-- The result-collecting loop of `search_in_file`: walks the raw line list
with its running index, keeping the indices whose lowered raw content
contains the lowered term. -/
def search_results (term : List Char) : List Line → Nat → List Nat
  | [], _ => []
  | l :: ls, i =>
    if isSubstring (lowerL term) (lowerL l) then i :: search_results term ls (i + 1)
    else search_results term ls (i + 1)

/-- The anchor loop of `search_in_file`: walks the match list with its
running position and stops at the first match strictly beyond the current
line, as the `for ... if result_line > current_line: break` loop does. -/
def anchor_scan (currentLine : Nat) : List Nat → Nat → Option Nat
  | [], _ => none
  | r :: rs, i => if currentLine < r then some i else anchor_scan currentLine rs (i + 1)

/-- Embedding of `FileManager.search_in_file(lines, current_line)` for a
given stripped search term: an empty term returns immediately with no
matches; otherwise the match list is collected over the raw `lines` (the
overlay is not consulted) and the starting pointer is the position of
`current_line` in the match list when it occurs there, else the position of
the first match beyond `current_line`, else zero. -/
def search_in_file (lines : List Line) (currentLine : Nat) (term : List Char) :
    List Nat × Nat :=
  if term.isEmpty then ([], 0)
  else
    let results := search_results term lines 0
    let idx :=
      if results.contains currentLine then results.indexOf currentLine
      else
        match anchor_scan currentLine results 0 with
        | some i => i
        | none => 0
    (results, idx)

/-- Follows the wording of the specification for the search scan (the
refinement target of claim C5): the indices whose effective, overlay-aware
content matches the term case-insensitively, in ascending order. -/
def searchMatchesSpec (lines : List Line) (o : Overlay) (term : List Char) : List Nat :=
  (List.range lines.length).filter
    (fun i => isSubstring (lowerL term) (lowerL (effectiveLine lines o i)))

/-- Discriminates the operations that touch only the backup file. -/
def FsOp.isBackup : FsOp → Bool
  | .backupTruncate => true
  | .backupWrite _ => true
  | _ => false

/-- A stored line carrying exactly one trailing newline: some clean content
followed by a single final newline character. -/
def OneNL (l : Line) : Prop := ∃ t, l = t ++ ['\n'] ∧ CleanLine t

/-- The pure cursor-movement tokens of the claims about clamping. -/
def isMove : Key → Bool
  | .up | .down | .left | .right | .home | .lineEnd => true
  | _ => false

/-- The cursor invariant of an inline-editing session: the session is in
editing mode, the edited line index is within buffer bounds and the cursor
column is within the effective content of the edited line. -/
def EditInv (s : EditSession) : Prop :=
  s.editingLine = true ∧ s.currentEditLine < s.lines.length
    ∧ s.cursorPosition ≤ (effectiveLine s.lines s.modified s.currentEditLine).length

example : readlines [] = [] := by decide
example : readlines ['a', '\n', 'b'] = [['a', '\n'], ['b']] := by decide
example : stripNL ['a', '\r', '\n'] = ['a'] := by decide
example : load_file (some []) = [] := by decide
example :
    runOps ⟨some ['B'], none⟩ (save_file_changes_ops [['A', '\n']] oempty)
      = ⟨some ['A', '\n'], some ['A', '\n']⟩ := by decide
example :
    search_in_file [['a', '\n'], ['b', '\n'], ['a', '\n'], ['c', '\n']] 2 ['a']
      = ([0, 2], 1) := by decide
example :
    search_in_file [['a', '\n'], ['b', '\n'], ['a', '\n'], ['c', '\n']] 3 ['a']
      = ([0, 2], 0) := by decide

/-- C1. The viewer session on the one-line file `ab` splits the line with
Enter at column 1, leaves editing with Ctrl+S and saves with the S command:
the handler stashed the second half `b` in `self.new_line_content`, but no
caller reads that attribute and the write loop of `save_file_changes` visits
only the indices of `original_lines`, so the saved file holds only `a` — the
split-off half is not appended after the last line as the claim states.
The final conjunct shows directly that an overlay entry at index
`buffer.line_count()` is dropped by the save rather than appended. -/
theorem c1_appended_lines_lost_on_save :
    (viewer_save_step true
        (viewer_editing_step
          (viewer_editing_step
            ⟨⟨some ['a', 'b', '\n'], none⟩, [['a', 'b', '\n']], oempty, 0, 1,
              true, true, false⟩ .enter) .ctrlS)).disk.orig
        = some ['a', '\n']
      ∧ (handle_editing_input .enter [['a', 'b', '\n']] oempty 0 1 true).newLine
          = some (1, ['b', '\n'])
      ∧ (runOps ⟨some ['a', '\n'], none⟩
            (save_file_changes_ops [['a', '\n']] (oinsert oempty 1 ['b', '\n']))).orig
          = some ['a', '\n'] := by decide

/-- C2 counterexample. Two consecutive saves of the viewer session on a file
loaded as `A`: the first save (overlay entry `B` on line 0) rewrites the file
to `B`, but `original_lines` is never reloaded, so the second save (overlay
entry `C`) writes `A` — the stale in-memory lines — to the backup path, not
the file's current on-disk bytes `B`. -/
theorem c2_backup_not_on_disk_bytes :
    (runOps ⟨some ['A', '\n'], none⟩
        (save_file_changes_ops [['A', '\n']] (oinsert oempty 0 ['B', '\n']))).orig
        = some ['B', '\n']
      ∧ (runOps
            (runOps ⟨some ['A', '\n'], none⟩
              (save_file_changes_ops [['A', '\n']] (oinsert oempty 0 ['B', '\n'])))
            (save_file_changes_ops [['A', '\n']] (oinsert oempty 0 ['C', '\n']))).backup
          = some ['A', '\n']
      ∧ (runOps
            (runOps ⟨some ['A', '\n'], none⟩
              (save_file_changes_ops [['A', '\n']] (oinsert oempty 0 ['B', '\n'])))
            (save_file_changes_ops [['A', '\n']] (oinsert oempty 0 ['C', '\n']))).backup
          ≠ some ['B', '\n'] := by decide

/-- C3 counterexample. In an inline-editing session with the pending overlay
entry `b` on line 0 of the file `a`, the Ctrl+S token merely clears the
editing flag: the disk still holds `a`, the overlay entry is still pending,
and nothing wrote the merged content `b` that an immediate invocation of the
persistence gate would have produced. -/
theorem c3_ctrl_s_does_not_write_disk :
    (viewer_editing_step
        ⟨⟨some ['a', '\n'], none⟩, [['a', '\n']], oinsert oempty 0 ['b', '\n'],
          0, 1, true, true, false⟩ .ctrlS).editingLine = false
      ∧ (viewer_editing_step
          ⟨⟨some ['a', '\n'], none⟩, [['a', '\n']], oinsert oempty 0 ['b', '\n'],
            0, 1, true, true, false⟩ .ctrlS).disk.orig = some ['a', '\n']
      ∧ (viewer_editing_step
          ⟨⟨some ['a', '\n'], none⟩, [['a', '\n']], oinsert oempty 0 ['b', '\n'],
            0, 1, true, true, false⟩ .ctrlS).modified 0 = some ['b', '\n']
      ∧ (viewer_editing_step
          ⟨⟨some ['a', '\n'], none⟩, [['a', '\n']], oinsert oempty 0 ['b', '\n'],
            0, 1, true, true, false⟩ .ctrlS).disk.orig
        ≠ some (writeLines (mergedLines [['a', '\n']] (oinsert oempty 0 ['b', '\n']))) := by
  decide

/-- C4. `SimpleEditor.load_file` represents a missing file as one empty line,
but an existing zero-byte file is read with `readlines()`, which returns the
empty list: the loaded buffer has zero lines, contradicting the never-empty
invariant (subsequent cursor operations index `self.lines[0]` and raise
`IndexError`). -/
theorem c4_zero_byte_file_loads_empty_buffer :
    load_file (some []) = [] ∧ (load_file (some [])).length = 0
      ∧ load_file none = [[]] := by decide

/-- C5 counterexample. With the overlay entry `xyz` pending on line 0 of the
buffer `abc`, searching for `x` finds nothing, because `search_in_file`
scans the raw `lines` and never consults `modified_lines`; the match list
predicted by the claim from the effective content is `[0]`. -/
theorem c5_search_ignores_overlay :
    (search_in_file [['a', 'b', 'c', '\n']] 0 ['x']).1 = []
      ∧ searchMatchesSpec [['a', 'b', 'c', '\n']]
          (oinsert oempty 0 ['x', 'y', 'z', '\n']) ['x'] = [0]
      ∧ (search_in_file [['a', 'b', 'c', '\n']] 0 ['x']).1
        ≠ searchMatchesSpec [['a', 'b', 'c', '\n']]
            (oinsert oempty 0 ['x', 'y', 'z', '\n']) ['x'] := by decide

/-- C6. In the viewer session on the two-line file with the cursor editing
line 1, the MoveUp token makes `handle_editing_input` assign
`self.current_edit_line := 0`, but the viewer loop copies back only the
cursor position, the insert flag and the editing flag, so the line being
edited is still line 1 afterwards — the vertical move is lost. -/
theorem c6_vertical_move_lost_by_viewer :
    (handle_editing_input .up [['a', 'b', '\n'], ['c', 'd', '\n']] oempty 1 0
        true).currentEditLine = some 0
      ∧ (viewer_editing_step
          ⟨⟨none, none⟩, [['a', 'b', '\n'], ['c', 'd', '\n']], oempty, 1, 0,
            true, true, false⟩ .up).currentEditLine = 1
      ∧ (viewer_editing_step
          ⟨⟨none, none⟩, [['a', 'b', '\n'], ['c', 'd', '\n']], oempty, 1, 0,
            true, true, false⟩ .up).editingLine = true := by decide

/-- C7. In the viewer session on the one-line file `abc`, Enter at column 1
followed by Backspace at column 0 does not restore the line: the Enter
discards the second half `bc` (stashed in an attribute nobody reads) and the
viewer's Backspace branch has no line-join case, so the effective content of
the edited line ends up `a` with the cursor at column 0, instead of the
claimed `abc` with the cursor at column 1. -/
theorem c7_split_join_not_inverse_in_viewer :
    (let s2 :=
      viewer_editing_step
        (viewer_editing_step
          ⟨⟨none, none⟩, [['a', 'b', 'c', '\n']], oempty, 0, 1, true, true,
            false⟩ .enter) .backspace
     effectiveLine s2.lines s2.modified s2.currentEditLine = ['a']
       ∧ s2.cursorPosition = 0 ∧ s2.currentEditLine = 0
       ∧ s2.editingLine = true) := by decide

theorem runOps_append (d : Disk) (a b : List FsOp) :
    runOps d (a ++ b) = runOps (runOps d a) b := by
  simp [runOps, List.foldl_append]

theorem applyOp_orig_of_isBackup (d : Disk) (op : FsOp) (h : op.isBackup = true) :
    (applyOp d op).orig = d.orig := by
  cases op <;> simp_all [applyOp, FsOp.isBackup]

theorem applyOp_backup_of_not_isBackup (d : Disk) (op : FsOp)
    (h : op.isBackup = false) : (applyOp d op).backup = d.backup := by
  cases op <;> simp_all [applyOp, FsOp.isBackup]

theorem runOps_orig_of_backup (ops : List FsOp) :
    ∀ d : Disk, (∀ op ∈ ops, op.isBackup = true) → (runOps d ops).orig = d.orig := by
  induction ops with
  | nil => intro d _; rfl
  | cons op rest ih =>
    intro d h
    have h1 : runOps d (op :: rest) = runOps (applyOp d op) rest := rfl
    rw [h1, ih _ (fun o ho => h o (List.mem_cons_of_mem _ ho)),
      applyOp_orig_of_isBackup _ _ (h op (List.mem_cons_self _ _))]

theorem runOps_backup_of_orig (ops : List FsOp) :
    ∀ d : Disk, (∀ op ∈ ops, op.isBackup = false) → (runOps d ops).backup = d.backup := by
  induction ops with
  | nil => intro d _; rfl
  | cons op rest ih =>
    intro d h
    have h1 : runOps d (op :: rest) = runOps (applyOp d op) rest := rfl
    rw [h1, ih _ (fun o ho => h o (List.mem_cons_of_mem _ ho)),
      applyOp_backup_of_not_isBackup _ _ (h op (List.mem_cons_self _ _))]

theorem runOps_backupWrites (ls : List Line) :
    ∀ (d : Disk) (b : List Char), d.backup = some b →
      (runOps d (ls.map FsOp.backupWrite)).backup = some (b ++ ls.flatten)
        ∧ (runOps d (ls.map FsOp.backupWrite)).orig = d.orig := by
  induction ls with
  | nil => intro d b h; simp [runOps, h]
  | cons l rest ih =>
    intro d b h
    have h1 : runOps d ((l :: rest).map FsOp.backupWrite)
        = runOps (applyOp d (FsOp.backupWrite l)) (rest.map FsOp.backupWrite) := rfl
    have h2 : (applyOp d (FsOp.backupWrite l)).backup = some (b ++ l) := by
      simp [applyOp, h]
    have h3 := ih (applyOp d (FsOp.backupWrite l)) (b ++ l) h2
    rw [h1, h3.1]
    refine ⟨by simp, ?_⟩
    rw [h3.2]
    simp [applyOp]

theorem runOps_origWrites (ls : List Line) :
    ∀ (d : Disk) (b : List Char), d.orig = some b →
      (runOps d (ls.map FsOp.origWrite)).orig = some (b ++ ls.flatten)
        ∧ (runOps d (ls.map FsOp.origWrite)).backup = d.backup := by
  induction ls with
  | nil => intro d b h; simp [runOps, h]
  | cons l rest ih =>
    intro d b h
    have h1 : runOps d ((l :: rest).map FsOp.origWrite)
        = runOps (applyOp d (FsOp.origWrite l)) (rest.map FsOp.origWrite) := rfl
    have h2 : (applyOp d (FsOp.origWrite l)).orig = some (b ++ l) := by
      simp [applyOp, h]
    have h3 := ih (applyOp d (FsOp.origWrite l)) (b ++ l) h2
    rw [h1, h3.1]
    refine ⟨by simp, ?_⟩
    rw [h3.2]
    simp [applyOp]

theorem save_file_changes_run (d : Disk) (original : List Line) (o : Overlay) :
    runOps d (save_file_changes_ops original o)
      = ⟨some (writeLines (mergedLines original o)), some (writeLines original)⟩ := by
  have hsplit : save_file_changes_ops original o
      = (FsOp.backupTruncate :: original.map FsOp.backupWrite)
        ++ (FsOp.origTruncate :: (mergedLines original o).map FsOp.origWrite) := rfl
  rw [hsplit, runOps_append]
  have hA : runOps d (FsOp.backupTruncate :: original.map FsOp.backupWrite)
      = ⟨d.orig, some (writeLines original)⟩ := by
    have h1 : runOps d (FsOp.backupTruncate :: original.map FsOp.backupWrite)
        = runOps (applyOp d .backupTruncate) (original.map FsOp.backupWrite) := rfl
    have h2 : (applyOp d .backupTruncate).backup = some [] := rfl
    have h3 := runOps_backupWrites original (applyOp d .backupTruncate) [] h2
    apply Disk.ext
    · rw [h1, h3.2]; rfl
    · rw [h1, h3.1]; simp [writeLines]
  rw [hA]
  have h4 : runOps (⟨d.orig, some (writeLines original)⟩ : Disk)
      (FsOp.origTruncate :: (mergedLines original o).map FsOp.origWrite)
      = runOps (⟨some [], some (writeLines original)⟩ : Disk)
        ((mergedLines original o).map FsOp.origWrite) := rfl
  have h5 := runOps_origWrites (mergedLines original o)
    (⟨some [], some (writeLines original)⟩ : Disk) [] rfl
  rw [h4]
  apply Disk.ext
  · rw [h5.1]; simp [writeLines]
  · rw [h5.2]

/-- C2 amended. For the viewer's `save_file_changes`, the backup receives the
concatenation of the in-memory `original_lines` captured at load time — not
the file's current on-disk bytes — and any abort during the backup phase (a
prefix of the effect list no longer than the backup phase) leaves the
original file untouched; the standalone editor's `save_file` does copy the
on-disk bytes to the backup, and likewise leaves the original untouched on
any abort within its backup phase. -/
theorem c2_backup_semantics (d : Disk) (original : List Line) (o : Overlay)
    (bytes : List Char) (lines : List Line) (k j : Nat)
    (hd : d.orig = some bytes) (hk : k ≤ original.length + 1) (hj : j ≤ 2) :
    (runOps d ((save_file_changes_ops original o).take k)).orig = d.orig
      ∧ (runOps d (save_file_changes_ops original o)).backup
          = some (writeLines original)
      ∧ (runOps d (save_file_ops d.orig lines)).backup = some bytes
      ∧ (runOps d ((save_file_ops d.orig lines).take j)).orig = d.orig := by
  have hmemA : ∀ op ∈ (FsOp.backupTruncate :: original.map FsOp.backupWrite),
      op.isBackup = true := by
    intro op hop
    rcases List.mem_cons.mp hop with h | h
    · subst h; rfl
    · obtain ⟨l, _, rfl⟩ := List.mem_map.mp h; rfl
  refine ⟨?_, ?_, ?_, ?_⟩
  · have htake : (save_file_changes_ops original o).take k
        = (FsOp.backupTruncate :: original.map FsOp.backupWrite).take k :=
      List.take_append_of_le_length (by simpa using hk)
    rw [htake]
    exact runOps_orig_of_backup _ d
      (fun op hop => hmemA op (List.take_subset _ _ hop))
  · rw [save_file_changes_run]
  · rw [hd]
    have hsplit : save_file_ops (some bytes) lines
        = [FsOp.backupTruncate, FsOp.backupWrite bytes]
          ++ (FsOp.origTruncate :: lines.map FsOp.origWrite) := rfl
    rw [hsplit, runOps_append]
    have h1 : runOps d [FsOp.backupTruncate, FsOp.backupWrite bytes]
        = ⟨d.orig, some bytes⟩ := by
      simp [runOps, applyOp]
    rw [h1]
    have h2 : ∀ op ∈ (FsOp.origTruncate :: lines.map FsOp.origWrite),
        op.isBackup = false := by
      intro op hop
      rcases List.mem_cons.mp hop with h | h
      · subst h; rfl
      · obtain ⟨l, _, rfl⟩ := List.mem_map.mp h; rfl
    rw [runOps_backup_of_orig _ _ h2]
  · conv_lhs => rw [hd]
    have htake : (save_file_ops (some bytes) lines).take j
        = [FsOp.backupTruncate, FsOp.backupWrite bytes].take j :=
      List.take_append_of_le_length (by simpa using hj)
    rw [htake]
    have hmemB : ∀ op ∈ [FsOp.backupTruncate, FsOp.backupWrite bytes],
        op.isBackup = true := by
      intro op hop
      rcases List.mem_cons.mp hop with h | h
      · subst h; rfl
      · rcases List.mem_cons.mp h with h2 | h2
        · subst h2; rfl
        · cases h2
    exact runOps_orig_of_backup _ d
      (fun op hop => hmemB op (List.take_subset _ _ hop))

/-- Witness for `c2_backup_semantics` at a concrete disk and session. -/
theorem c2_backup_semantics_witness :
    ((⟨some ['B', '\n'], none⟩ : Disk).orig = some ['B', '\n']
        ∧ 2 ≤ ([['A', '\n']] : List Line).length + 1 ∧ 2 ≤ 2)
      ∧ ((runOps ⟨some ['B', '\n'], none⟩
            ((save_file_changes_ops [['A', '\n']] oempty).take 2)).orig
            = (⟨some ['B', '\n'], none⟩ : Disk).orig
          ∧ (runOps ⟨some ['B', '\n'], none⟩
              (save_file_changes_ops [['A', '\n']] oempty)).backup
              = some (writeLines [['A', '\n']])
          ∧ (runOps ⟨some ['B', '\n'], none⟩
              (save_file_ops (⟨some ['B', '\n'], none⟩ : Disk).orig
                [['C', '\n']])).backup = some ['B', '\n']
          ∧ (runOps ⟨some ['B', '\n'], none⟩
              ((save_file_ops (⟨some ['B', '\n'], none⟩ : Disk).orig
                [['C', '\n']]).take 2)).orig
              = (⟨some ['B', '\n'], none⟩ : Disk).orig) :=
  ⟨⟨rfl, by decide, by decide⟩,
    c2_backup_semantics ⟨some ['B', '\n'], none⟩ [['A', '\n']] oempty
      ['B', '\n'] [['C', '\n']] 2 2 rfl (by decide) (by decide)⟩

/-- C3 amended. In an inline-editing session, Ctrl+S clears the editing flag
(returning to viewing mode) and marks the file modified; the overlay, the
buffer and the disk are all left as they were, so the pending edits stay in
memory only. The disk write happens only when the separate save command runs:
on a modified session it writes the overlay merge to the file and the
in-memory original lines to the backup, then clears the modified flag and
the overlay. -/
theorem c3_ctrl_s_defers_save (s : EditSession) (j : Nat)
    (_h : s.editingLine = true) :
    (viewer_editing_step s .ctrlS).editingLine = false
      ∧ (viewer_editing_step s .ctrlS).fileModified = true
      ∧ (viewer_editing_step s .ctrlS).modified = s.modified
      ∧ (viewer_editing_step s .ctrlS).disk = s.disk
      ∧ (viewer_editing_step s .ctrlS).lines = s.lines
      ∧ (viewer_save_step true (viewer_editing_step s .ctrlS)).disk.orig
          = some (writeLines (mergedLines s.lines s.modified))
      ∧ (viewer_save_step true (viewer_editing_step s .ctrlS)).disk.backup
          = some (writeLines s.lines)
      ∧ (viewer_save_step true (viewer_editing_step s .ctrlS)).fileModified = false
      ∧ (viewer_save_step true (viewer_editing_step s .ctrlS)).modified j = none := by
  have hstep : viewer_editing_step s .ctrlS
      = { s with editingLine := false, fileModified := true } := by
    simp [viewer_editing_step, handle_editing_input]
  rw [hstep]
  have hsave : viewer_save_step true
      ({ s with editingLine := false, fileModified := true } : EditSession)
      = { s with
          editingLine := false
          fileModified := false
          disk := runOps s.disk (save_file_changes_ops s.lines s.modified)
          modified := oempty } := by
    simp [viewer_save_step]
  rw [hsave]
  refine ⟨rfl, rfl, rfl, rfl, rfl, ?_, ?_, rfl, rfl⟩
  · rw [save_file_changes_run]
  · rw [save_file_changes_run]

/-- Witness for `c3_ctrl_s_defers_save` on a one-line session with a pending
overlay entry. -/
theorem c3_ctrl_s_defers_save_witness :
    ((⟨⟨some ['a', '\n'], none⟩, [['a', '\n']], oinsert oempty 0 ['b', '\n'],
          0, 1, true, true, false⟩ : EditSession).editingLine = true)
      ∧ ((viewer_editing_step
            ⟨⟨some ['a', '\n'], none⟩, [['a', '\n']],
              oinsert oempty 0 ['b', '\n'], 0, 1, true, true, false⟩
            .ctrlS).editingLine = false
        ∧ (viewer_editing_step
            ⟨⟨some ['a', '\n'], none⟩, [['a', '\n']],
              oinsert oempty 0 ['b', '\n'], 0, 1, true, true, false⟩
            .ctrlS).fileModified = true
        ∧ (viewer_editing_step
            ⟨⟨some ['a', '\n'], none⟩, [['a', '\n']],
              oinsert oempty 0 ['b', '\n'], 0, 1, true, true, false⟩
            .ctrlS).modified
            = (⟨⟨some ['a', '\n'], none⟩, [['a', '\n']],
                oinsert oempty 0 ['b', '\n'], 0, 1, true, true, false⟩ :
                EditSession).modified
        ∧ (viewer_editing_step
            ⟨⟨some ['a', '\n'], none⟩, [['a', '\n']],
              oinsert oempty 0 ['b', '\n'], 0, 1, true, true, false⟩
            .ctrlS).disk = ⟨some ['a', '\n'], none⟩
        ∧ (viewer_editing_step
            ⟨⟨some ['a', '\n'], none⟩, [['a', '\n']],
              oinsert oempty 0 ['b', '\n'], 0, 1, true, true, false⟩
            .ctrlS).lines = [['a', '\n']]
        ∧ (viewer_save_step true (viewer_editing_step
            ⟨⟨some ['a', '\n'], none⟩, [['a', '\n']],
              oinsert oempty 0 ['b', '\n'], 0, 1, true, true, false⟩
            .ctrlS)).disk.orig
            = some (writeLines (mergedLines [['a', '\n']]
                (oinsert oempty 0 ['b', '\n'])))
        ∧ (viewer_save_step true (viewer_editing_step
            ⟨⟨some ['a', '\n'], none⟩, [['a', '\n']],
              oinsert oempty 0 ['b', '\n'], 0, 1, true, true, false⟩
            .ctrlS)).disk.backup = some (writeLines [['a', '\n']])
        ∧ (viewer_save_step true (viewer_editing_step
            ⟨⟨some ['a', '\n'], none⟩, [['a', '\n']],
              oinsert oempty 0 ['b', '\n'], 0, 1, true, true, false⟩
            .ctrlS)).fileModified = false
        ∧ (viewer_save_step true (viewer_editing_step
            ⟨⟨some ['a', '\n'], none⟩, [['a', '\n']],
              oinsert oempty 0 ['b', '\n'], 0, 1, true, true, false⟩
            .ctrlS)).modified 5 = none) :=
  ⟨rfl,
    c3_ctrl_s_defers_save
      ⟨⟨some ['a', '\n'], none⟩, [['a', '\n']], oinsert oempty 0 ['b', '\n'],
        0, 1, true, true, false⟩ 5 rfl⟩

theorem filter_range_succ (n : Nat) (q : Nat → Bool) :
    (List.range (n + 1)).filter q
      = (if q 0 then [0] else [])
        ++ ((List.range n).filter (fun j => q (j + 1))).map (fun j => j + 1) := by
  rw [List.range_succ_eq_map, List.filter_cons]
  by_cases h0 : q 0
  · simp only [h0, if_pos, List.filter_map, List.singleton_append]
    rfl
  · simp only [h0, Bool.false_eq_true, if_neg, List.filter_map, List.nil_append,
      not_false_iff]
    rfl

theorem search_results_spec (term : List Char) (ls : List Line) :
    ∀ i, search_results term ls i
      = (((List.range ls.length).filter
          (fun j => isSubstring (lowerL term) (lowerL (ls.getD j [])))).map
            (fun j => j + i)) := by
  induction ls with
  | nil => intro i; simp [search_results]
  | cons l t ih =>
    intro i
    have hstep : search_results term (l :: t) i
        = if isSubstring (lowerL term) (lowerL l) then
            i :: search_results term t (i + 1)
          else search_results term t (i + 1) := rfl
    have hlen : (l :: t : List Line).length = t.length + 1 := rfl
    rw [hstep, hlen, filter_range_succ]
    have hq1 : (fun j => isSubstring (lowerL term)
          (lowerL ((l :: t).getD (j + 1) [])))
        = (fun j => isSubstring (lowerL term) (lowerL (t.getD j []))) := by
      funext j
      rw [List.getD_cons_succ]
    rw [List.map_append, List.map_map, hq1, ih (i + 1)]
    have hmaps : List.map ((fun j => j + i) ∘ fun j => j + 1)
          ((List.range t.length).filter
            (fun j => isSubstring (lowerL term) (lowerL (t.getD j []))))
        = List.map (fun j => j + (i + 1))
          ((List.range t.length).filter
            (fun j => isSubstring (lowerL term) (lowerL (t.getD j [])))) := by
      apply List.map_congr_left
      intro a _
      simp [Function.comp]
      omega
    rw [hmaps]
    simp only [List.getD_cons_zero]
    by_cases hp : isSubstring (lowerL term) (lowerL l)
    · simp [hp]
    · simp [hp]

theorem search_results_zero (term : List Char) (ls : List Line) :
    search_results term ls 0
      = (List.range ls.length).filter
          (fun j => isSubstring (lowerL term) (lowerL (ls.getD j []))) := by
  rw [search_results_spec term ls 0]
  simp

theorem search_results_sorted (term : List Char) (ls : List Line) :
    List.Pairwise (· < ·) (search_results term ls 0) := by
  rw [search_results_zero]
  exact (List.pairwise_lt_range _).sublist (List.filter_sublist _)

theorem anchor_scan_eq_none (cur : Nat) (l : List Nat) :
    ∀ i, anchor_scan cur l i = none → ∀ r ∈ l, r ≤ cur := by
  induction l with
  | nil => intro i _ r hr; cases hr
  | cons a t ih =>
    intro i h r hr
    by_cases ha : cur < a
    · simp [anchor_scan, ha] at h
    · rcases List.mem_cons.mp hr with h1 | h1
      · subst h1; omega
      · exact ih (i + 1) (by simpa [anchor_scan, ha] using h) r h1

theorem anchor_scan_spec (cur : Nat) (l : List Nat) :
    ∀ i j, anchor_scan cur l i = some j →
      i ≤ j ∧ j - i < l.length ∧ cur < l.getD (j - i) 0
        ∧ ∀ m < j - i, l.getD m 0 ≤ cur := by
  induction l with
  | nil => intro i j h; simp [anchor_scan] at h
  | cons a t ih =>
    intro i j h
    by_cases ha : cur < a
    · have hj : j = i := by simpa [anchor_scan, ha] using h.symm
      subst hj
      refine ⟨Nat.le_refl _, by simp, by simpa, ?_⟩
      intro m hm
      omega
    · have h2 : anchor_scan cur t (i + 1) = some j := by
        simpa [anchor_scan, ha] using h
      obtain ⟨hij, hlen, hgt, hall⟩ := ih (i + 1) j h2
      refine ⟨by omega, by simp; omega, ?_, ?_⟩
      · have : j - i = (j - (i + 1)) + 1 := by omega
        rw [this, List.getD_cons_succ]
        exact hgt
      · intro m hm
        cases m with
        | zero => simp; omega
        | succ m2 =>
          rw [List.getD_cons_succ]
          exact hall m2 (by omega)

/-- C5 amended. The search scans every line index in ascending order testing
the RAW buffer line (the overlay is never consulted) with a case-insensitive
substring match; an empty term yields no matches and pointer 0, and the
starting pointer obeys the claimed anchor rule: the anchor's own position
when the anchor line matches, else the position of the first match strictly
beyond the anchor, else position 0. -/
theorem c5_search_characterisation (lines : List Line) (cur : Nat)
    (term : List Char) (m : Nat) :
    (term = [] → search_in_file lines cur term = ([], 0))
      ∧ (term ≠ [] → (search_in_file lines cur term).1
          = (List.range lines.length).filter
              (fun i => isSubstring (lowerL term) (lowerL (lines.getD i []))))
      ∧ (cur ∈ (search_in_file lines cur term).1 →
          (search_in_file lines cur term).1.getD
            (search_in_file lines cur term).2 0 = cur)
      ∧ (cur ∉ (search_in_file lines cur term).1 →
          (∃ r ∈ (search_in_file lines cur term).1, cur < r) →
          (search_in_file lines cur term).2
              < (search_in_file lines cur term).1.length
            ∧ cur < (search_in_file lines cur term).1.getD
                (search_in_file lines cur term).2 0)
      ∧ (cur ∉ (search_in_file lines cur term).1 →
          m < (search_in_file lines cur term).2 →
          (search_in_file lines cur term).1.getD m 0 ≤ cur)
      ∧ (cur ∉ (search_in_file lines cur term).1 →
          (∀ r ∈ (search_in_file lines cur term).1, r ≤ cur) →
          (search_in_file lines cur term).2 = 0) := by
  by_cases hterm : term.isEmpty
  · have hsf : search_in_file lines cur term = ([], 0) := by
      simp [search_in_file, hterm]
    rw [hsf]
    refine ⟨fun _ => rfl, fun hne => ?_, ?_, ?_, ?_, ?_⟩
    · exact absurd (List.isEmpty_iff.mp hterm) hne
    · intro hmem; cases hmem
    · intro _ hex; obtain ⟨r, hr, _⟩ := hex; cases hr
    · intro _ hm; omega
    · intro _ _; rfl
  · have h1 : (search_in_file lines cur term).1 = search_results term lines 0 := by
      simp [search_in_file, hterm]
    have h2 : (search_in_file lines cur term).2
        = (if (search_results term lines 0).contains cur then
            (search_results term lines 0).indexOf cur
          else
            match anchor_scan cur (search_results term lines 0) 0 with
            | some i => i
            | none => 0) := by
      simp [search_in_file, hterm]
    rw [h1, h2]
    by_cases hmem : cur ∈ search_results term lines 0
    · have hc : (search_results term lines 0).contains cur = true := by
        simp [List.contains, hmem]
      rw [if_pos hc]
      have hlt : (search_results term lines 0).indexOf cur
          < (search_results term lines 0).length :=
        List.indexOf_lt_length.mpr hmem
      refine ⟨fun h => absurd (by simp [h]) hterm, fun _ => search_results_zero term lines,
        fun _ => ?_, fun hn _ => absurd hmem hn, fun hn _ => absurd hmem hn,
        fun hn _ => absurd hmem hn⟩
      rw [List.getD_eq_getElem _ _ hlt]
      exact List.getElem_indexOf hlt
    · have hc : (search_results term lines 0).contains cur = false := by
        simp [List.contains, hmem]
      rw [if_neg (by simp [List.contains, hmem])]
      refine ⟨fun h => absurd (by simp [h]) hterm, fun _ => search_results_zero term lines,
        fun hin => absurd hin hmem, ?_, ?_, ?_⟩
      · intro _ hex
        cases han : anchor_scan cur (search_results term lines 0) 0 with
        | none =>
          exfalso
          obtain ⟨r, hr, hltr⟩ := hex
          have := anchor_scan_eq_none cur (search_results term lines 0) 0 han r hr
          omega
        | some j =>
          obtain ⟨_, hlen0, hgt0, _⟩ :=
            anchor_scan_spec cur (search_results term lines 0) 0 j han
          simp only [Nat.sub_zero] at hlen0 hgt0
          exact ⟨hlen0, hgt0⟩
      · intro _ hm
        cases han : anchor_scan cur (search_results term lines 0) 0 with
        | none => rw [han] at hm; simp at hm
        | some j =>
          rw [han] at hm
          obtain ⟨_, _, _, hall0⟩ :=
            anchor_scan_spec cur (search_results term lines 0) 0 j han
          simp only [Nat.sub_zero] at hall0
          exact hall0 m hm
      · intro _ hall
        cases han : anchor_scan cur (search_results term lines 0) 0 with
        | none => rfl
        | some j =>
          exfalso
          obtain ⟨_, hlen0, hgt0, _⟩ :=
            anchor_scan_spec cur (search_results term lines 0) 0 j han
          simp only [Nat.sub_zero] at hlen0 hgt0
          have hmem2 : (search_results term lines 0).getD j 0
              ∈ search_results term lines 0 := by
            rw [List.getD_eq_getElem _ _ hlen0]
            exact List.getElem_mem hlen0
          have := hall _ hmem2
          omega

/-- Witness for `c5_search_characterisation` on the specification's own
four-line example, searching for `a` anchored at line 2. -/
theorem c5_search_characterisation_witness :
    ((['a'] : List Char) ≠ []
        ∧ 2 ∈ (search_in_file [['a', '\n'], ['b', '\n'], ['a', '\n'], ['c', '\n']]
            2 ['a']).1)
      ∧ ((search_in_file [['a', '\n'], ['b', '\n'], ['a', '\n'], ['c', '\n']]
            2 ['a']).1
          = (List.range
              ([['a', '\n'], ['b', '\n'], ['a', '\n'], ['c', '\n']] :
                List Line).length).filter
              (fun i => isSubstring (lowerL ['a'])
                (lowerL ([['a', '\n'], ['b', '\n'], ['a', '\n'], ['c', '\n']].getD
                  i [])))
        ∧ (search_in_file [['a', '\n'], ['b', '\n'], ['a', '\n'], ['c', '\n']]
            2 ['a']).1.getD
            (search_in_file [['a', '\n'], ['b', '\n'], ['a', '\n'], ['c', '\n']]
              2 ['a']).2 0 = 2) :=
  ⟨⟨by decide, by decide⟩,
    (c5_search_characterisation [['a', '\n'], ['b', '\n'], ['a', '\n'], ['c', '\n']]
        2 ['a'] 0).2.1 (by decide),
    (c5_search_characterisation [['a', '\n'], ['b', '\n'], ['a', '\n'], ['c', '\n']]
        2 ['a'] 0).2.2.1 (by decide)⟩

theorem stripNL_append_NL (x : Line) (c : Char) (h : isNL c = true) :
    stripNL (x ++ [c]) = stripNL x := by
  simp [stripNL, List.dropWhile_cons, h]

theorem stripNL_snoc (x : Line) (c : Char) (h : isNL c = false) :
    stripNL (x ++ [c]) = x ++ [c] := by
  simp [stripNL, List.dropWhile_cons, h]

theorem stripNL_eq_self (x : Line)
    (h : ∀ a, x.getLast? = some a → isNL a = false) : stripNL x = x := by
  cases hx : x.getLast? with
  | none =>
    have : x = [] := List.getLast?_eq_none_iff.mp hx
    subst this; rfl
  | some a =>
    have hx2 : x.dropLast ++ [a] = x := List.dropLast_append_getLast? a hx
    rw [← hx2]
    exact stripNL_snoc _ _ (h a hx)

theorem getLast?_stripNL (s : Line) (a : Char)
    (ha : (stripNL s).getLast? = some a) : isNL a = false := by
  have h1 : (stripNL s).getLast? = (s.reverse.dropWhile isNL).head? := by
    simp [stripNL]
  rw [h1] at ha
  have h2 := List.head?_dropWhile_not isNL s.reverse
  rw [ha] at h2
  exact h2

theorem getLast?_append_right {α : Type} (l l' : List α) (h : l' ≠ []) :
    (l ++ l').getLast? = l'.getLast? := by
  rw [List.getLast?_append]
  cases hl : l'.getLast? with
  | none => exact absurd (List.getLast?_eq_none_iff.mp hl) h
  | some b => rfl

theorem getLast?_drop {α : Type} (l : List α) :
    ∀ k, k < l.length → (l.drop k).getLast? = l.getLast? := by
  induction l with
  | nil => intro k h; simp at h
  | cons a t ih =>
    intro k h
    cases k with
    | zero => rfl
    | succ k2 =>
      have hk2 : k2 < t.length := by simpa using h
      have ht : t ≠ [] := by
        intro e
        rw [e] at hk2
        simp at hk2
      have h3 : (a :: t).getLast? = t.getLast? := by
        have := getLast?_append_right [a] t ht
        simpa using this
      rw [List.drop_succ_cons, ih k2 hk2, h3]

theorem stripNL_keeps_tail (raw y : Line) (k : Nat) (c : Char)
    (hc : isNL c = false) :
    stripNL (y ++ (c :: (stripNL raw).drop k)) = y ++ (c :: (stripNL raw).drop k) := by
  apply stripNL_eq_self
  intro a ha
  rw [getLast?_append_right _ _ (List.cons_ne_nil c _)] at ha
  cases hd : ((stripNL raw).drop k).getLast? with
  | none =>
    have hnil : (stripNL raw).drop k = [] := List.getLast?_eq_none_iff.mp hd
    rw [hnil] at ha
    simp at ha
    subst ha
    exact hc
  | some b =>
    have hne : (stripNL raw).drop k ≠ [] := by
      intro e
      rw [e] at hd
      simp at hd
    have hcons : (c :: (stripNL raw).drop k).getLast?
        = ((stripNL raw).drop k).getLast? := by
      have := getLast?_append_right [c] ((stripNL raw).drop k) hne
      simpa using this
    rw [hcons, hd] at ha
    have hklt : k < (stripNL raw).length := by
      by_contra hge
      exact hne (List.drop_eq_nil_of_le (by omega))
    exact getLast?_stripNL raw a (by rw [← getLast?_drop _ k hklt, hd]; exact ha)

theorem oinsert_self (o : Overlay) (i : Nat) (v : Line) : oinsert o i v i = some v := by
  simp [oinsert]

theorem effectiveLine_oinsert (lines : List Line) (o : Overlay) (i : Nat) (v : Line) :
    effectiveLine lines (oinsert o i v) i = stripNL v := by
  simp [effectiveLine, oinsert]

/-- C8. A printable character token in the inline editor splices the
character into the effective line content at the cursor column — inserting
before column `k` in insert mode, replacing the character at `k` in overwrite
mode when `k` is interior, appending when `k` sits at the end — advances the
column by one, and stores the result (with its single trailing newline) in
the overlay at the current line index, so the new text is exactly the
effective content of that line afterwards. -/
theorem c8_printable_char_splice (lines : List Line) (o : Overlay) (i k : Nat)
    (ins : Bool) (c : Char)
    (_hk : k ≤ (effectiveLine lines o i).length) (hc : isNL c = false) :
    (handle_editing_input (.char c) lines o i k ins).cursorPosition = k + 1
      ∧ (handle_editing_input (.char c) lines o i k ins).modified i
          = some ((if ins then
                (effectiveLine lines o i).take k ++ [c]
                  ++ (effectiveLine lines o i).drop k
              else if k < (effectiveLine lines o i).length then
                (effectiveLine lines o i).take k ++ [c]
                  ++ (effectiveLine lines o i).drop (k + 1)
              else effectiveLine lines o i ++ [c]) ++ ['\n'])
      ∧ effectiveLine lines
            (handle_editing_input (.char c) lines o i k ins).modified i
          = (if ins then
              (effectiveLine lines o i).take k ++ [c]
                ++ (effectiveLine lines o i).drop k
            else if k < (effectiveLine lines o i).length then
              (effectiveLine lines o i).take k ++ [c]
                ++ (effectiveLine lines o i).drop (k + 1)
            else effectiveLine lines o i ++ [c]) := by
  have hmod : (handle_editing_input (.char c) lines o i k ins).modified
      = oinsert o i ((if ins then
            (effectiveLine lines o i).take k ++ [c]
              ++ (effectiveLine lines o i).drop k
          else if k < (effectiveLine lines o i).length then
            (effectiveLine lines o i).take k ++ [c]
              ++ (effectiveLine lines o i).drop (k + 1)
          else effectiveLine lines o i ++ [c]) ++ ['\n']) := rfl
  have hs : effectiveLine lines o i
      = stripNL ((o i).getD (lines.getD i [])) := rfl
  refine ⟨rfl, ?_, ?_⟩
  · rw [hmod, oinsert_self]
  · rw [hmod, effectiveLine_oinsert, stripNL_append_NL _ _ (by decide)]
    by_cases hins : ins = true
    · rw [hins]
      simp only [if_true]
      rw [hs, List.append_assoc, List.singleton_append]
      exact stripNL_keeps_tail _ _ k c hc
    · have hins2 : ins = false := by
        cases ins
        · rfl
        · exact absurd rfl hins
      rw [hins2]
      simp only [Bool.false_eq_true, if_false]
      by_cases hlt : k < (effectiveLine lines o i).length
      · rw [if_pos hlt, hs, List.append_assoc, List.singleton_append]
        exact stripNL_keeps_tail _ _ (k + 1) c hc
      · rw [if_neg hlt]
        have hdrop : effectiveLine lines o i ++ [c]
            = effectiveLine lines o i
              ++ (c :: (effectiveLine lines o i).drop
                    (effectiveLine lines o i).length) := by
          rw [List.drop_length]
        rw [hdrop, hs]
        exact stripNL_keeps_tail _ _ _ c hc

/-- Witness for `c8_printable_char_splice`: inserting `x` at column 1 of the
line `ab`. -/
theorem c8_printable_char_splice_witness :
    (1 ≤ (effectiveLine [['a', 'b', '\n']] oempty 0).length
        ∧ isNL 'x' = false)
      ∧ ((handle_editing_input (.char 'x') [['a', 'b', '\n']] oempty 0 1
            true).cursorPosition = 2
        ∧ (handle_editing_input (.char 'x') [['a', 'b', '\n']] oempty 0 1
            true).modified 0
            = some ((if true then
                  (effectiveLine [['a', 'b', '\n']] oempty 0).take 1 ++ ['x']
                    ++ (effectiveLine [['a', 'b', '\n']] oempty 0).drop 1
                else if 1 < (effectiveLine [['a', 'b', '\n']] oempty 0).length then
                  (effectiveLine [['a', 'b', '\n']] oempty 0).take 1 ++ ['x']
                    ++ (effectiveLine [['a', 'b', '\n']] oempty 0).drop 2
                else effectiveLine [['a', 'b', '\n']] oempty 0 ++ ['x']) ++ ['\n'])
        ∧ effectiveLine [['a', 'b', '\n']]
              (handle_editing_input (.char 'x') [['a', 'b', '\n']] oempty 0 1
                true).modified 0
            = (if true then
                (effectiveLine [['a', 'b', '\n']] oempty 0).take 1 ++ ['x']
                  ++ (effectiveLine [['a', 'b', '\n']] oempty 0).drop 1
              else if 1 < (effectiveLine [['a', 'b', '\n']] oempty 0).length then
                (effectiveLine [['a', 'b', '\n']] oempty 0).take 1 ++ ['x']
                  ++ (effectiveLine [['a', 'b', '\n']] oempty 0).drop 2
              else effectiveLine [['a', 'b', '\n']] oempty 0 ++ ['x'])) :=
  ⟨⟨by decide, by decide⟩,
    c8_printable_char_splice [['a', 'b', '\n']] oempty 0 1 true 'x'
      (by decide) (by decide)⟩

theorem viewer_move_step (s : EditSession) (key : Key) (hk : isMove key = true)
    (h : EditInv s) :
    EditInv (viewer_editing_step s key)
      ∧ (viewer_editing_step s key).lines = s.lines
      ∧ (viewer_editing_step s key).modified = s.modified
      ∧ (viewer_editing_step s key).currentEditLine = s.currentEditLine := by
  obtain ⟨he, hl, hc⟩ := h
  cases key with
  | left =>
    refine ⟨⟨?_, ?_, ?_⟩, ?_, ?_, ?_⟩ <;>
        simp only [viewer_editing_step, handle_editing_input, if_true, he]
    · exact hl
    · omega
  | right =>
    refine ⟨⟨?_, ?_, ?_⟩, ?_, ?_, ?_⟩ <;>
        simp only [viewer_editing_step, handle_editing_input, if_true, he]
    · exact hl
    · omega
  | home =>
    refine ⟨⟨?_, ?_, ?_⟩, ?_, ?_, ?_⟩ <;>
        simp only [viewer_editing_step, handle_editing_input, if_true, he]
    · exact hl
    · omega
  | lineEnd =>
    refine ⟨⟨?_, ?_, ?_⟩, ?_, ?_, ?_⟩ <;>
        simp only [viewer_editing_step, handle_editing_input, if_true, he]
    · exact hl
    · omega
  | up =>
    by_cases h0 : s.currentEditLine > 0 <;>
        refine ⟨⟨?_, ?_, ?_⟩, ?_, ?_, ?_⟩ <;>
        simp only [viewer_editing_step, handle_editing_input, if_true, he, h0,
          if_pos, if_neg, not_false_iff] <;>
        try exact hl
    · omega
    · omega
  | down =>
    by_cases h0 : s.currentEditLine < s.lines.length - 1 <;>
        refine ⟨⟨?_, ?_, ?_⟩, ?_, ?_, ?_⟩ <;>
        simp only [viewer_editing_step, handle_editing_input, if_true, he, h0,
          if_pos, if_neg, not_false_iff] <;>
        try exact hl
    · omega
    · omega
  | escape => simp [isMove] at hk
  | insertToggle => simp [isMove] at hk
  | backspace => simp [isMove] at hk
  | delete => simp [isMove] at hk
  | ctrlS => simp [isMove] at hk
  | ctrlD => simp [isMove] at hk
  | enter => simp [isMove] at hk
  | char c => simp [isMove] at hk

/-- C9. Starting from any inline-editing state satisfying the cursor
invariant, any sequence of movement tokens (arrow keys, Home, End) keeps the
session in editing mode with the edited line index inside the buffer bounds
and the cursor column within the effective length of the edited line; the
line index in fact never changes in the viewer, and a vertical-move token
clamps the column to the effective length of the destination line. -/
theorem c9_move_tokens_clamped (s : EditSession) (keys : List Key)
    (hkeys : ∀ k ∈ keys, isMove k = true) (h : EditInv s) :
    (EditInv (keys.foldl viewer_editing_step s)
        ∧ (keys.foldl viewer_editing_step s).currentEditLine = s.currentEditLine)
      ∧ (0 < s.currentEditLine →
          (viewer_editing_step s .up).cursorPosition
            ≤ (effectiveLine s.lines s.modified (s.currentEditLine - 1)).length)
      ∧ (s.currentEditLine < s.lines.length - 1 →
          (viewer_editing_step s .down).cursorPosition
            ≤ (effectiveLine s.lines s.modified (s.currentEditLine + 1)).length) := by
  refine ⟨?_, ?_, ?_⟩
  · induction keys generalizing s with
    | nil => exact ⟨h, rfl⟩
    | cons k rest ih =>
      have hk := hkeys k (List.mem_cons_self _ _)
      obtain ⟨hinv, _, _, hcel⟩ := viewer_move_step s k hk h
      have hfold : (k :: rest).foldl viewer_editing_step s
          = rest.foldl viewer_editing_step (viewer_editing_step s k) := rfl
      rw [hfold]
      obtain ⟨h1, h2⟩ := ih (viewer_editing_step s k)
        (fun k2 hk2 => hkeys k2 (List.mem_cons_of_mem _ hk2)) hinv
      exact ⟨h1, by rw [h2, hcel]⟩
  · intro h0
    have he := h.1
    simp only [viewer_editing_step, handle_editing_input, he, h0, if_true,
      if_pos]
    omega
  · intro h0
    have he := h.1
    simp only [viewer_editing_step, handle_editing_input, he, h0, if_true,
      if_pos]
    omega

/-- Witness for `c9_move_tokens_clamped` on a two-line session walking down,
to end of line, up and right. -/
theorem c9_move_tokens_clamped_witness :
    ((∀ k ∈ ([.down, .lineEnd, .up, .right] : List Key), isMove k = true)
        ∧ EditInv ⟨⟨none, none⟩, [['a', '\n'], ['b', 'c', '\n']], oempty, 0, 1,
            true, true, false⟩)
      ∧ ((EditInv (([.down, .lineEnd, .up, .right] : List Key).foldl
              viewer_editing_step
              ⟨⟨none, none⟩, [['a', '\n'], ['b', 'c', '\n']], oempty, 0, 1,
                true, true, false⟩)
          ∧ (([.down, .lineEnd, .up, .right] : List Key).foldl
              viewer_editing_step
              ⟨⟨none, none⟩, [['a', '\n'], ['b', 'c', '\n']], oempty, 0, 1,
                true, true, false⟩).currentEditLine
            = (⟨⟨none, none⟩, [['a', '\n'], ['b', 'c', '\n']], oempty, 0, 1,
                true, true, false⟩ : EditSession).currentEditLine)
        ∧ (0 < (⟨⟨none, none⟩, [['a', '\n'], ['b', 'c', '\n']], oempty, 0, 1,
              true, true, false⟩ : EditSession).currentEditLine →
            (viewer_editing_step
              ⟨⟨none, none⟩, [['a', '\n'], ['b', 'c', '\n']], oempty, 0, 1,
                true, true, false⟩ .up).cursorPosition
              ≤ (effectiveLine [['a', '\n'], ['b', 'c', '\n']] oempty (0 - 1)).length)
        ∧ ((⟨⟨none, none⟩, [['a', '\n'], ['b', 'c', '\n']], oempty, 0, 1,
              true, true, false⟩ : EditSession).currentEditLine
              < ([['a', '\n'], ['b', 'c', '\n']] : List Line).length - 1 →
            (viewer_editing_step
              ⟨⟨none, none⟩, [['a', '\n'], ['b', 'c', '\n']], oempty, 0, 1,
                true, true, false⟩ .down).cursorPosition
              ≤ (effectiveLine [['a', '\n'], ['b', 'c', '\n']] oempty (0 + 1)).length)) :=
  ⟨⟨by decide, rfl, by decide, by decide⟩,
    c9_move_tokens_clamped
      ⟨⟨none, none⟩, [['a', '\n'], ['b', 'c', '\n']], oempty, 0, 1, true, true,
        false⟩
      [.down, .lineEnd, .up, .right] (by decide) ⟨rfl, by decide, by decide⟩⟩

theorem clean_take (x : Line) (k : Nat) (h : CleanLine x) : CleanLine (x.take k) :=
  fun c hc => h c (List.take_subset _ _ hc)

theorem clean_drop (x : Line) (k : Nat) (h : CleanLine x) : CleanLine (x.drop k) :=
  fun c hc => h c (List.drop_subset _ _ hc)

theorem clean_append (x y : Line) (hx : CleanLine x) (hy : CleanLine y) :
    CleanLine (x ++ y) :=
  fun c hc => (List.mem_append.mp hc).elim (hx c) (hy c)

theorem clean_single (c : Char) (hc : isNL c = false) : CleanLine [c] := by
  intro d hd
  simp at hd
  subst hd
  exact hc

theorem clean_nil : CleanLine [] := fun c hc => absurd hc (List.not_mem_nil c)

/-- C10. Every content-mutating edit stores the line it touches as clean
content followed by exactly one newline character: the printable-character
splice, the Backspace character deletion, the Delete deletion and both halves
of the Enter split in the viewer's handler, and the Backspace line-join of
the standalone editor. Since the stored content is clean, an original
carriage-return/newline terminator is reduced to a single newline, and an
edited final line that lacked a terminator gains one. -/
theorem c10_edits_store_single_newline (lines : List Line) (o : Overlay)
    (i k : Nat) (ins : Bool) (c : Char) (es : EditorState)
    (hclean : CleanLine (effectiveLine lines o i)) (hc : isNL c = false)
    (hprev : CleanLine (editorLine es (es.currentLine - 1)))
    (hcur : CleanLine (editorLine es es.currentLine))
    (hcl : es.currentLine < es.lines.length) :
    (∃ v, (handle_editing_input (.char c) lines o i k ins).modified i = some v
        ∧ OneNL v)
      ∧ (0 < k →
          ∃ v, (handle_editing_input .backspace lines o i k ins).modified i
              = some v ∧ OneNL v)
      ∧ (k < (effectiveLine lines o i).length →
          ∃ v, (handle_editing_input .delete lines o i k ins).modified i
              = some v ∧ OneNL v)
      ∧ (k < (effectiveLine lines o i).length →
          (∃ v, (handle_editing_input .enter lines o i k ins).modified i
              = some v ∧ OneNL v)
            ∧ ∃ p, (handle_editing_input .enter lines o i k ins).newLine
                = some p ∧ OneNL p.2)
      ∧ (es.cursorPos = 0 → 0 < es.currentLine →
          OneNL ((handle_input es .backspace).lines.getD
            (es.currentLine - 1) [])) := by
  refine ⟨?_, ?_, ?_, ?_, ?_⟩
  · have hmod : (handle_editing_input (.char c) lines o i k ins).modified i
        = some ((if ins then
            (effectiveLine lines o i).take k ++ [c]
              ++ (effectiveLine lines o i).drop k
          else if k < (effectiveLine lines o i).length then
            (effectiveLine lines o i).take k ++ [c]
              ++ (effectiveLine lines o i).drop (k + 1)
          else effectiveLine lines o i ++ [c]) ++ ['\n']) :=
      oinsert_self o i _
    refine ⟨_, hmod, _, rfl, ?_⟩
    by_cases hins : ins = true
    · rw [hins, if_pos rfl]
      exact clean_append _ _
        (clean_append _ _ (clean_take _ _ hclean) (clean_single c hc))
        (clean_drop _ _ hclean)
    · have hins2 : ins = false := by
        cases ins
        · rfl
        · exact absurd rfl hins
      rw [hins2]
      simp only [Bool.false_eq_true, if_false]
      by_cases hlt : k < (effectiveLine lines o i).length
      · rw [if_pos hlt]
        exact clean_append _ _
          (clean_append _ _ (clean_take _ _ hclean) (clean_single c hc))
          (clean_drop _ _ hclean)
      · rw [if_neg hlt]
        exact clean_append _ _ hclean (clean_single c hc)
  · intro hk0
    have hmod : (handle_editing_input .backspace lines o i k ins).modified
        = oinsert o i (((effectiveLine lines o i).take (k - 1)
            ++ (effectiveLine lines o i).drop k) ++ ['\n']) := by
      simp [handle_editing_input, hk0]
    rw [hmod, oinsert_self]
    exact ⟨_, rfl, _, rfl,
      clean_append _ _ (clean_take _ _ hclean) (clean_drop _ _ hclean)⟩
  · intro hlt
    have hmod : (handle_editing_input .delete lines o i k ins).modified
        = oinsert o i (((effectiveLine lines o i).take k
            ++ (effectiveLine lines o i).drop (k + 1)) ++ ['\n']) := by
      simp [handle_editing_input, hlt]
    rw [hmod, oinsert_self]
    exact ⟨_, rfl, _, rfl,
      clean_append _ _ (clean_take _ _ hclean) (clean_drop _ _ hclean)⟩
  · intro hlt
    have hmod : (handle_editing_input .enter lines o i k ins).modified
        = oinsert o i ((effectiveLine lines o i).take k ++ ['\n']) := by
      simp [handle_editing_input, hlt]
    have hnew : (handle_editing_input .enter lines o i k ins).newLine
        = some (i + 1, (effectiveLine lines o i).drop k ++ ['\n']) := by
      simp [handle_editing_input, hlt]
    refine ⟨⟨_, by rw [hmod, oinsert_self], _, rfl, clean_take _ _ hclean⟩,
      ⟨_, hnew, _, rfl, clean_drop _ _ hclean⟩⟩
  · intro hcz h0
    have hmod : (handle_input es .backspace).lines
        = (es.lines.set (es.currentLine - 1)
            (editorLine es (es.currentLine - 1)
              ++ editorLine es es.currentLine ++ ['\n'])).eraseIdx
            es.currentLine := by
      simp [handle_input, hcz, h0]
    rw [hmod]
    have hlt1 : es.currentLine - 1
        < ((es.lines.set (es.currentLine - 1)
            (editorLine es (es.currentLine - 1)
              ++ editorLine es es.currentLine ++ ['\n'])).eraseIdx
            es.currentLine).length := by
      rw [List.length_eraseIdx]
      simp [hcl]
      omega
    rw [List.getD_eq_getElem _ _ hlt1,
      List.getElem_eraseIdx_of_lt _ _ _ _ (by omega)]
    rw [List.getElem_set_self]
    exact ⟨_, rfl, clean_append _ _ hprev hcur⟩

/-- Witness for `c10_edits_store_single_newline` on a concrete session: the
viewer edits line 0 of `ab` at column 1, and the standalone editor joins
line 1 of a two-line buffer onto line 0. -/
theorem c10_edits_store_single_newline_witness :
    (CleanLine (effectiveLine [['a', 'b', '\n']] oempty 0)
        ∧ isNL 'x' = false
        ∧ CleanLine (editorLine
            ⟨[['a', '\n'], ['b', '\r', '\n']], 1, 0, true⟩ (1 - 1))
        ∧ CleanLine (editorLine
            ⟨[['a', '\n'], ['b', '\r', '\n']], 1, 0, true⟩ 1)
        ∧ (1 : Nat) < ([['a', '\n'], ['b', '\r', '\n']] : List Line).length)
      ∧ ((∃ v, (handle_editing_input (.char 'x') [['a', 'b', '\n']] oempty 0 1
              true).modified 0 = some v ∧ OneNL v)
        ∧ (0 < (1 : Nat) →
            ∃ v, (handle_editing_input .backspace [['a', 'b', '\n']] oempty 0 1
                true).modified 0 = some v ∧ OneNL v)
        ∧ ((1 : Nat) < (effectiveLine [['a', 'b', '\n']] oempty 0).length →
            ∃ v, (handle_editing_input .delete [['a', 'b', '\n']] oempty 0 1
                true).modified 0 = some v ∧ OneNL v)
        ∧ ((1 : Nat) < (effectiveLine [['a', 'b', '\n']] oempty 0).length →
            (∃ v, (handle_editing_input .enter [['a', 'b', '\n']] oempty 0 1
                true).modified 0 = some v ∧ OneNL v)
              ∧ ∃ p, (handle_editing_input .enter [['a', 'b', '\n']] oempty 0 1
                  true).newLine = some p ∧ OneNL p.2)
        ∧ ((⟨[['a', '\n'], ['b', '\r', '\n']], 1, 0, true⟩ :
              EditorState).cursorPos = 0 → 0 < (1 : Nat) →
            OneNL ((handle_input
              ⟨[['a', '\n'], ['b', '\r', '\n']], 1, 0, true⟩
              .backspace).lines.getD (1 - 1) []))) :=
  ⟨⟨by decide, by decide, by decide, by decide, by decide⟩,
    c10_edits_store_single_newline [['a', 'b', '\n']] oempty 0 1 true 'x'
      ⟨[['a', '\n'], ['b', '\r', '\n']], 1, 0, true⟩
      (by decide) (by decide) (by decide) (by decide) (by decide)⟩
